import Mathlib

/-!
Verification of the pdoom Markov-chain propagation core (`src/models.ts`).

Shallow embedding of the probability-propagation engine:

* A JS `Map<T, Prob>` (`Ensemble<T>` in the source) is embedded as an
  association list `List (T × α)` with unique keys maintained by the
  `Map.set` discipline: `mapGet` returns the value at the first matching
  key, `mapSet` overwrites the first matching key in place or appends a
  fresh entry at the end — exactly the observable behaviour of a JS `Map`.
* JS `number` arithmetic is embedded as exact arithmetic in a field `α`
  (instantiated at `ℚ` for executable checks and at `ℝ` for the domain
  model, whose hazard curves use `Math.exp`).  Note `x / 0 = 0` in Lean
  where JS produces `NaN`; all division sites are guarded by the same
  nonzero-denominator preconditions the source documents.
* The domain model `buildModels` closes over `Math.exp`-based sigmoids,
  so it lives over `ℝ` and is noncomputable; its ensemble weights are
  rational literals and are reasoned about symbolically.
-/

namespace PDoom

/-- JS `Map.get`: value at the first (in a real `Map`, the only) entry whose
key equals `k`, or `none`. -/
def mapGet {T α : Type} [DecidableEq T] : List (T × α) → T → Option α
  | [], _ => none
  | (k0, v0) :: rest, k => if k0 = k then some v0 else mapGet rest k

/-- JS `Map.set`: overwrite the first entry with key `k` in place, or append
`(k, v)` at the end when `k` is absent. -/
def mapSet {T α : Type} [DecidableEq T] : List (T × α) → T → α → List (T × α)
  | [], k, v => [(k, v)]
  | (k0, v0) :: rest, k, v =>
      if k0 = k then (k, v) :: rest else (k0, v0) :: mapSet rest k v

/-- Sum of the values stored in an ensemble (total probability mass). -/
def sumValues {T α : Type} [AddCommMonoid α] (m : List (T × α)) : α :=
  (m.map Prod.snd).sum

/-- The accumulation pattern shared by the two `forEach` inner loops of
`step` and `mix` in `src/models.ts`: for each `(key, p)` of `dist`, add
`scale p` to `result`'s entry at `key` (missing entries count as `0`,
the `result.get(k) || 0` idiom). -/
def accumInto {T α : Type} [DecidableEq T] [Field α]
    (result : List (T × α)) (scale : α → α) (dist : List (T × α)) :
    List (T × α) :=
  dist.foldl
    (fun r pr => mapSet r pr.1 (((mapGet r pr.1).getD 0) + scale pr.2)) result

/-- Function `step` from `src/models.ts` (lines 7–20): one Markov step.  For every
`(cur, probability)` of the input, every `(next, nextProbability)` of
`transition cur` contributes `probability * nextProbability` to the output
entry at `next`. -/
def step {T α : Type} [DecidableEq T] [Field α]
    (ensemble : List (T × α)) (transition : T → List (T × α)) :
    List (T × α) :=
  ensemble.foldl
    (fun result pr => accumInto result (fun q => pr.2 * q) (transition pr.1))
    []

theorem mapGet_cons_self {T α : Type} [DecidableEq T]
    (k : T) (v : α) (tl : List (T × α)) :
    mapGet ((k, v) :: tl) k = some v := by
  simp [mapGet]

theorem mapGet_cons_ne {T α : Type} [DecidableEq T]
    {k0 k : T} (h : k0 ≠ k) (v0 : α) (tl : List (T × α)) :
    mapGet ((k0, v0) :: tl) k = mapGet tl k := by
  simp [mapGet, h]

theorem mapSet_cons_self {T α : Type} [DecidableEq T]
    (k : T) (v w : α) (tl : List (T × α)) :
    mapSet ((k, v) :: tl) k w = (k, w) :: tl := by
  simp [mapSet]

theorem mapSet_cons_ne {T α : Type} [DecidableEq T]
    {k0 k : T} (h : k0 ≠ k) (v0 : α) (w : α) (tl : List (T × α)) :
    mapSet ((k0, v0) :: tl) k w = (k0, v0) :: mapSet tl k w := by
  simp [mapSet, h]

theorem sumValues_nil {T α : Type} [AddCommMonoid α] :
    sumValues ([] : List (T × α)) = 0 := rfl

theorem sumValues_cons {T α : Type} [AddCommMonoid α]
    (p : T × α) (m : List (T × α)) :
    sumValues (p :: m) = p.2 + sumValues m := by
  simp [sumValues]

/-- Bumping the entry at `k` by `v` (on top of its current value, absent
read as `0`) raises the total mass by exactly `v`. -/
theorem sumValues_mapSet_add {T α : Type} [DecidableEq T] [AddCommMonoid α]
    (m : List (T × α)) (k : T) (v : α) :
    sumValues (mapSet m k (((mapGet m k).getD 0) + v)) = sumValues m + v := by
  induction m with
  | nil => simp [mapSet, mapGet, sumValues]
  | cons hd tl ih =>
      obtain ⟨k0, v0⟩ := hd
      by_cases hk : k0 = k
      · subst hk
        rw [mapGet_cons_self, mapSet_cons_self]
        simp only [Option.getD_some, sumValues_cons]
        abel
      · rw [mapGet_cons_ne hk, mapSet_cons_ne hk]
        simp only [sumValues_cons, ih, add_assoc]

/-- The inner accumulation loop adds the `scale`-image of `dist`'s mass to
the accumulator's mass. -/
theorem sumValues_accumInto {T α : Type} [DecidableEq T] [Field α]
    (scale : α → α) (dist : List (T × α)) (result : List (T × α)) :
    sumValues (accumInto result scale dist) =
      sumValues result + ((dist.map Prod.snd).map scale).sum := by
  induction dist generalizing result with
  | nil => simp [accumInto]
  | cons hd tl ih =>
      simp only [accumInto, List.foldl_cons] at *
      rw [ih, sumValues_mapSet_add, add_assoc]
      simp

/-- Mass of one Markov step: each source entry `(cur, p)` contributes
`p * sumValues (transition cur)`. -/
theorem sumValues_step {T α : Type} [DecidableEq T] [Field α]
    (ensemble : List (T × α)) (transition : T → List (T × α)) :
    sumValues (step ensemble transition) =
      (ensemble.map (fun pr => pr.2 * sumValues (transition pr.1))).sum := by
  have key : ∀ (l : List (T × α)) (r : List (T × α)),
      sumValues (l.foldl
        (fun result pr =>
          accumInto result (fun q => pr.2 * q) (transition pr.1)) r) =
      sumValues r + (l.map (fun pr => pr.2 * sumValues (transition pr.1))).sum := by
    intro l
    induction l with
    | nil => simp
    | cons hd tl ih =>
        intro r
        simp only [List.foldl_cons, List.map_cons, List.sum_cons]
        rw [ih, sumValues_accumInto]
        have hmul : (((transition hd.1).map Prod.snd).map fun q => hd.2 * q).sum
            = hd.2 * sumValues (transition hd.1) := by
          simp [sumValues, List.map_map, Function.comp_def, List.sum_map_mul_left]
        rw [hmul]
        ring
  simpa [step, sumValues_nil] using key ensemble []

/-- C1: if the input distribution sums to 1 and the transition's output sums
to 1 at every outcome carrying nonzero mass in the input (its support), then
`step` conserves mass: the output sums to 1. -/
theorem step_mass_conservation {T α : Type} [DecidableEq T] [Field α]
    (ensemble : List (T × α)) (transition : T → List (T × α))
    (hsum : sumValues ensemble = 1)
    (htrans : ∀ pr ∈ ensemble, pr.2 ≠ 0 → sumValues (transition pr.1) = 1) :
    sumValues (step ensemble transition) = 1 := by
  rw [sumValues_step]
  have : ∀ pr ∈ ensemble, pr.2 * sumValues (transition pr.1) = pr.2 := by
    intro pr hpr
    by_cases hz : pr.2 = 0
    · simp [hz]
    · rw [htrans pr hpr hz, mul_one]
  calc (ensemble.map (fun pr => pr.2 * sumValues (transition pr.1))).sum
      = (ensemble.map Prod.snd).sum := by
        apply congrArg List.sum
        exact List.map_congr_left this
    _ = 1 := hsum

/-- C1 witness: a concrete two-outcome chain over `ℚ`. -/
theorem step_mass_conservation_witness :
    sumValues (step [((0 : ℤ), (1 : ℚ))]
      (fun _ => [((0 : ℤ), (1 : ℚ)/2), ((1 : ℤ), (1 : ℚ)/2)])) = 1 :=
  step_mass_conservation _ _ (by norm_num [sumValues])
    (by intro pr hpr hz; norm_num [sumValues])

/-- The loop body of `extrapolate` (lines 27–32): push the current
distribution, then step it, `n` times. -/
def extrapolateGo {T α : Type} [DecidableEq T] [Field α]
    (transition : T → List (T × α)) :
    List (T × α) → Nat → List (List (T × α))
  | _, 0 => []
  | current, n + 1 =>
      current :: extrapolateGo transition (step current transition) n

/-- Function `extrapolate` from `src/models.ts` (lines 22–34): start from the point
mass `{start: 1}` and record `nSteps` successive distributions, each
recorded before it is stepped. -/
def extrapolate {T α : Type} [DecidableEq T] [Field α]
    (start : T) (transition : T → List (T × α)) (nSteps : Nat) :
    List (List (T × α)) :=
  extrapolateGo transition [(start, 1)] nSteps

/-- Function `mix` from `src/models.ts` (lines 36–49): pool weighted distributions,
each entry contributing `probability * weight / totalWeight`. -/
def mix {T α : Type} [DecidableEq T] [Field α]
    (ensembles : List (List (T × α) × α)) : List (T × α) :=
  let totalWeight := (ensembles.map Prod.snd).sum
  ensembles.foldl
    (fun result pr =>
      accumInto result (fun p => p * pr.2 / totalWeight) pr.1)
    []

/-- Function `mixHistories` from `src/models.ts` (lines 51–60): mix the trajectories
index by index; the first trajectory's length is authoritative, and an
out-of-range read of a shorter trajectory is a precondition violation
(embedded as a `[]` default, never reached by in-contract callers). -/
def mixHistories {T α : Type} [DecidableEq T] [Field α]
    (histories : List (List (List (T × α)) × α)) : List (List (T × α)) :=
  (List.range ((histories.headD ([], 0)).1.length)).map
    (fun i => mix (histories.map (fun pr => (pr.1.getD i [], pr.2))))

/-- Function `extrapolateAndMix` from `src/models.ts` (lines 62–71): extrapolate one
trajectory per ensemble member, then mix them with the ensemble weights. -/
def extrapolateAndMix {T α : Type} [DecidableEq T] [Field α]
    (start : T) (models : List ((T → List (T × α)) × α)) (nSteps : Nat) :
    List (List (T × α)) :=
  mixHistories (models.map (fun pr => (extrapolate start pr.1 nSteps, pr.2)))

/-- Function `normalize` from `src/models.ts` (lines 73–78): divide every value by
the total. -/
def normalize {T α : Type} [Field α] (ensemble : List (T × α)) :
    List (T × α) :=
  let total := (ensemble.map Prod.snd).sum
  ensemble.map (fun p => (p.1, p.2 / total))

theorem extrapolateGo_length {T α : Type} [DecidableEq T] [Field α]
    (transition : T → List (T × α)) (current : List (T × α)) (n : Nat) :
    (extrapolateGo transition current n).length = n := by
  induction n generalizing current with
  | zero => rfl
  | succ n ih => simp [extrapolateGo, ih]

theorem extrapolateGo_getElem {T α : Type} [DecidableEq T] [Field α]
    (transition : T → List (T × α)) (current : List (T × α)) (n i : Nat)
    (hi : i < n) :
    (extrapolateGo transition current n)[i]? =
      some ((fun m => step m transition)^[i] current) := by
  induction n generalizing current i with
  | zero => exact absurd hi (Nat.not_lt_zero i)
  | succ n ih =>
      cases i with
      | zero => simp [extrapolateGo]
      | succ i =>
          have hi' : i < n := Nat.lt_of_succ_lt_succ hi
          simp only [extrapolateGo, List.getElem?_cons_succ]
          rw [ih (step current transition) i hi']
          rw [Function.iterate_succ_apply]

/-- C2: `extrapolate start f n` with `n > 0` has length exactly `n`, its
element 0 is the point mass `{start: 1}`, and its element `i` is `step`
iterated `i` times on that point mass. -/
theorem extrapolate_spec {T α : Type} [DecidableEq T] [Field α]
    (start : T) (transition : T → List (T × α)) (n : Nat) (hn : 0 < n) :
    (extrapolate start transition n).length = n ∧
    (extrapolate start transition n)[0]? = some [(start, 1)] ∧
    ∀ i, i < n →
      (extrapolate start transition n)[i]? =
        some ((fun m => step m transition)^[i] [(start, 1)]) := by
  refine ⟨extrapolateGo_length _ _ _, ?_, ?_⟩
  · rw [extrapolate, extrapolateGo_getElem _ _ _ 0 hn]
    rfl
  · intro i hi
    exact extrapolateGo_getElem _ _ _ i hi

/-- C2 witness: a two-step extrapolation over `ℚ` of a deterministic
successor chain on `ℤ`. -/
theorem extrapolate_spec_witness :
    (extrapolate (0 : ℤ) (fun x => [((x + 1 : ℤ), (1 : ℚ))]) 2).length = 2 ∧
    (extrapolate (0 : ℤ) (fun x => [((x + 1 : ℤ), (1 : ℚ))]) 2)[0]? =
      some [((0 : ℤ), (1 : ℚ))] ∧
    ∀ i, i < 2 →
      (extrapolate (0 : ℤ) (fun x => [((x + 1 : ℤ), (1 : ℚ))]) 2)[i]? =
        some ((fun m => step m (fun x => [((x + 1 : ℤ), (1 : ℚ))]))^[i]
          [((0 : ℤ), (1 : ℚ))]) :=
  extrapolate_spec (0 : ℤ) (fun x => [((x + 1 : ℤ), (1 : ℚ))]) 2 (by decide)

theorem sum_map_mul_const {α : Type} [NonUnitalNonAssocSemiring α]
    (l : List α) (c : α) :
    (l.map fun p => p * c).sum = l.sum * c := by
  induction l with
  | nil => simp
  | cons hd tl ih => simp [ih, add_mul]

/-- Mass of `mix`: each pair `(d, w)` contributes
`sumValues d * w / totalWeight`. -/
theorem sumValues_mix {T α : Type} [DecidableEq T] [Field α]
    (ensembles : List (List (T × α) × α)) :
    sumValues (mix ensembles) =
      (ensembles.map
        (fun pr => sumValues pr.1 * pr.2 / (ensembles.map Prod.snd).sum)).sum := by
  rw [mix]
  generalize htot : (ensembles.map Prod.snd).sum = totalWeight
  have key : ∀ (l : List (List (T × α) × α)) (r : List (T × α)),
      sumValues (l.foldl
        (fun result pr =>
          accumInto result (fun p => p * pr.2 / totalWeight) pr.1) r) =
      sumValues r +
        (l.map (fun pr => sumValues pr.1 * pr.2 / totalWeight)).sum := by
    intro l
    induction l with
    | nil => simp
    | cons hd tl ih =>
        intro r
        simp only [List.foldl_cons, List.map_cons, List.sum_cons]
        rw [ih, sumValues_accumInto]
        have hmul : ((hd.1.map Prod.snd).map fun p => p * hd.2 / totalWeight).sum
            = sumValues hd.1 * hd.2 / totalWeight := by
          have h1 : (fun p => p * hd.2 / totalWeight)
              = fun p : α => p * (hd.2 / totalWeight) :=
            funext fun p => by rw [mul_div_assoc]
          rw [h1, sum_map_mul_const, sumValues, mul_div_assoc]
        rw [hmul]
        ring
  simpa [sumValues_nil] using key ensembles []

/-- C3 counterexample: a single pair whose distribution carries total mass
`1/2` and whose weight is `1` (total pair weight nonzero): the mix output
sums to `1/2`, not `1`. -/
theorem mix_unnormalized_counterexample :
    (([([((0 : ℤ), (1 : ℚ)/2)], (1 : ℚ))].map Prod.snd).sum ≠ 0) ∧
    sumValues (mix [([((0 : ℤ), (1 : ℚ)/2)], (1 : ℚ))]) = 1/2 ∧
    sumValues (mix [([((0 : ℤ), (1 : ℚ)/2)], (1 : ℚ))]) ≠ 1 := by
  refine ⟨by norm_num, ?_, ?_⟩ <;>
    norm_num [mix, accumInto, mapSet, mapGet, sumValues]

/-- C3 (amended): when every input distribution sums to 1 and the pair
weights have nonzero total, the output of `mix` sums to 1 — the weights
themselves need not be normalized. -/
theorem mix_mass_conservation {T α : Type} [DecidableEq T] [Field α]
    (ensembles : List (List (T × α) × α))
    (htot : (ensembles.map Prod.snd).sum ≠ 0)
    (hdist : ∀ pr ∈ ensembles, sumValues pr.1 = 1) :
    sumValues (mix ensembles) = 1 := by
  rw [sumValues_mix]
  have hcongr : ∀ pr ∈ ensembles,
      sumValues pr.1 * pr.2 / (ensembles.map Prod.snd).sum =
        pr.2 / (ensembles.map Prod.snd).sum := by
    intro pr hpr
    rw [hdist pr hpr, one_mul]
  rw [List.map_congr_left hcongr]
  have : (ensembles.map fun pr => pr.2 / (ensembles.map Prod.snd).sum).sum
      = (ensembles.map Prod.snd).sum / (ensembles.map Prod.snd).sum := by
    simp only [div_eq_mul_inv, List.sum_map_mul_right]
  rw [this, div_self htot]

/-- C3 witness: two unnormalized weights (3 and 1) over distributions each
summing to 1. -/
theorem mix_mass_conservation_witness :
    sumValues (mix [([((0 : ℤ), (1 : ℚ))], (3 : ℚ)),
      ([((0 : ℤ), (1 : ℚ)/2), ((1 : ℤ), (1 : ℚ)/2)], (1 : ℚ))]) = 1 :=
  mix_mass_conservation _ (by norm_num)
    (by intro pr hpr; fin_cases hpr <;> norm_num [sumValues])

theorem mapGet_eq_none_iff {T α : Type} [DecidableEq T]
    (m : List (T × α)) (k : T) :
    mapGet m k = none ↔ k ∉ m.map Prod.fst := by
  induction m with
  | nil => simp [mapGet]
  | cons hd tl ih =>
      obtain ⟨k0, v0⟩ := hd
      by_cases hk : k0 = k
      · subst hk
        simp [mapGet_cons_self]
      · rw [mapGet_cons_ne hk]
        simp [ih, Ne.symm hk]

theorem mapSet_append_of_not_mem {T α : Type} [DecidableEq T]
    {m : List (T × α)} {k : T} (h : k ∉ m.map Prod.fst) (v : α) :
    mapSet m k v = m ++ [(k, v)] := by
  induction m with
  | nil => rfl
  | cons hd tl ih =>
      obtain ⟨k0, v0⟩ := hd
      simp only [List.map_cons, List.mem_cons, not_or] at h
      rw [mapSet_cons_ne (Ne.symm h.1), ih h.2]
      simp

/-- Accumulating a distribution whose keys are all fresh for the
accumulator (and mutually distinct) appends the scaled entries in order. -/
theorem accumInto_of_fresh {T α : Type} [DecidableEq T] [Field α]
    (scale : α → α) (dist : List (T × α)) (result : List (T × α))
    (hnd : (dist.map Prod.fst).Nodup)
    (hfresh : ∀ k ∈ dist.map Prod.fst, k ∉ result.map Prod.fst) :
    accumInto result scale dist =
      result ++ dist.map (fun pr => (pr.1, scale pr.2)) := by
  induction dist generalizing result with
  | nil => simp [accumInto]
  | cons hd tl ih =>
      obtain ⟨k, p⟩ := hd
      simp only [List.map_cons, List.nodup_cons] at hnd
      have hk : k ∉ result.map Prod.fst := hfresh k (by simp)
      have hget : mapGet result k = none := (mapGet_eq_none_iff _ _).mpr hk
      simp only [accumInto, List.foldl_cons, hget, Option.getD_none, zero_add]
      rw [mapSet_append_of_not_mem hk]
      have hfresh' : ∀ k' ∈ tl.map Prod.fst,
          k' ∉ (result ++ [(k, scale p)]).map Prod.fst := by
        intro k' hk'
        simp only [List.map_append, List.mem_append, List.map_cons,
          List.map_nil, List.mem_singleton, not_or]
        refine ⟨hfresh k' (by simp [hk']), ?_⟩
        intro hkk
        exact hnd.1 (hkk ▸ hk')
      have := ih (result ++ [(k, scale p)]) hnd.2 hfresh'
      rw [show (tl.foldl (fun r pr =>
          mapSet r pr.1 (((mapGet r pr.1).getD 0) + scale pr.2))
          (result ++ [(k, scale p)])) =
        accumInto (result ++ [(k, scale p)]) scale tl from rfl]
      rw [this]
      simp

/-- C7: mixing a singleton list `[(d, w)]` with `w > 0` returns `d`
exactly (keys of a JS `Map` are unique, hence the `Nodup` hypothesis). -/
theorem mix_singleton {T α : Type} [DecidableEq T] [LinearOrderedField α]
    (d : List (T × α)) (w : α)
    (hnodup : (d.map Prod.fst).Nodup) (hw : 0 < w) :
    mix [(d, w)] = d := by
  have hw0 : w ≠ 0 := ne_of_gt hw
  have hmix : mix [(d, w)] =
      accumInto [] (fun p => p * w / ([(d, w)].map Prod.snd).sum) d := rfl
  have htot : ([(d, w)].map Prod.snd).sum = w := by simp
  rw [hmix, htot, accumInto_of_fresh _ _ _ hnodup (by simp)]
  have hid : ∀ pr ∈ d, (pr.1, pr.2 * w / w) = pr := by
    intro pr _
    rw [mul_div_assoc, div_self hw0, mul_one]
  rw [List.nil_append, List.map_congr_left hid]
  simp

/-- C7 witness: a concrete two-point distribution over `ℚ` with weight 2. -/
theorem mix_singleton_witness :
    mix [([((0 : ℤ), (1 : ℚ)/2), ((1 : ℤ), (1 : ℚ)/2)], (2 : ℚ))] =
      [((0 : ℤ), (1 : ℚ)/2), ((1 : ℤ), (1 : ℚ)/2)] :=
  mix_singleton _ _ (by decide) (by norm_num)

/-- Years are JS numbers (`Year = number`); every year produced by the domain model is an
integer. -/
abbrev Year := ℤ

/-- The outcome type `World = Year | "dead" | "heaven" | "reset"` from
`src/models.ts` line 87. -/
inductive World where
  | year (y : Year)
  | dead
  | heaven
  | reset
deriving DecidableEq

/-- The `{heaven, dead, reset}` odds record of the AGI sub-models. -/
structure AGIOdds (α : Type) where
  heaven : α
  dead : α
  reset : α

/-- Field names of an AGI odds record. -/
inductive AGIKey where
  | heaven
  | dead
  | reset

def AGIOdds.lookup {α : Type} (odds : AGIOdds α) : AGIKey → α
  | .heaven => odds.heaven
  | .dead => odds.dead
  | .reset => odds.reset

/-- Function `pFromOdds` (lines 80–85) at a `{heaven, dead, reset}` record: the
named entry divided by the sum of all entries (`Object.values`). -/
def pFromOdds {α : Type} [Field α] (odds : AGIOdds α) (key : AGIKey) : α :=
  odds.lookup key / (odds.heaven + odds.dead + odds.reset)

/-- The `{dead, reset}` odds record of the nuke and plague sub-models. -/
structure NPOdds (α : Type) where
  dead : α
  reset : α

/-- Field names of a nuke/plague odds record. -/
inductive NPKey where
  | dead
  | reset

def NPOdds.lookup {α : Type} (odds : NPOdds α) : NPKey → α
  | .dead => odds.dead
  | .reset => odds.reset

/-- Function `pFromOdds` at a `{dead, reset}` record. -/
def pFromOddsNP {α : Type} [Field α] (odds : NPOdds α) (key : NPKey) : α :=
  odds.lookup key / (odds.dead + odds.reset)

/-- Return value of a `SimpleAGIModel` (lines 89–92). -/
structure AGIOut (α : Type) where
  p : α
  odds : AGIOdds α

/-- Return value of a `SimpleNukeModel` / `SimplePlagueModel`
(lines 93–100). -/
structure NPOut (α : Type) where
  p : α
  odds : NPOdds α

abbrev SimpleAGIModel (α : Type) := Year → AGIOut α

abbrev SimpleNukeModel (α : Type) := Year → NPOut α

abbrev SimplePlagueModel (α : Type) := Year → NPOut α

/-- The `opts` object passed to `simpleTransitionFunction`. -/
structure SimpleModels (α : Type) where
  agi : SimpleAGIModel α
  nukes : SimpleNukeModel α
  plague : SimplePlagueModel α

/-- Function `simpleTransitionFunction` from `src/models.ts`
(lines 101–136):
sentinels are absorbing; a year sends mass to `heaven`/`dead`/`reset`
according to the three sub-models and the remaining mass to the next
year. -/
def simpleTransitionFunction {α : Type} [Field α] (opts : SimpleModels α) :
    World → List (World × α) :=
  fun world =>
    match world with
    | .dead => [(.dead, 1)]
    | .heaven => [(.heaven, 1)]
    | .reset => [(.reset, 1)]
    | .year year =>
        let agi := opts.agi year
        let nukes := opts.nukes year
        let plague := opts.plague year
        let pHeaven := agi.p * pFromOdds agi.odds .heaven
        let pDead := agi.p * pFromOdds agi.odds .dead
          + nukes.p * pFromOddsNP nukes.odds .dead
          + plague.p * pFromOddsNP plague.odds .dead
        let pReset := agi.p * pFromOdds agi.odds .reset
          + nukes.p * pFromOddsNP nukes.odds .reset
          + plague.p * pFromOddsNP plague.odds .reset
        [(.heaven, pHeaven), (.dead, pDead), (.reset, pReset),
         (.year (year + 1), 1 - pHeaven - pDead - pReset)]

/-- C5: the combined transition function maps each sentinel outcome
(`dead`, `heaven`, `reset`) to the point mass on that same outcome, for
every choice of sub-models. -/
theorem simpleTransitionFunction_absorbing {α : Type} [Field α]
    (opts : SimpleModels α) :
    simpleTransitionFunction opts World.dead = [(World.dead, 1)] ∧
    simpleTransitionFunction opts World.heaven = [(World.heaven, 1)] ∧
    simpleTransitionFunction opts World.reset = [(World.reset, 1)] :=
  ⟨rfl, rfl, rfl⟩

/-- C6: at a year `y`, the combined transition assigns
`P(heaven) = p_agi * oddsFrac(agi, heaven)`, additive sums for `dead` and
`reset` over the three sub-models, and the remaining mass
`1 - P(heaven) - P(dead) - P(reset)` to the year `y + 1`. -/
theorem simpleTransitionFunction_year_values {α : Type} [Field α]
    (opts : SimpleModels α) (y : Year) :
    mapGet (simpleTransitionFunction opts (World.year y)) World.heaven =
      some ((opts.agi y).p * pFromOdds (opts.agi y).odds AGIKey.heaven) ∧
    mapGet (simpleTransitionFunction opts (World.year y)) World.dead =
      some ((opts.agi y).p * pFromOdds (opts.agi y).odds AGIKey.dead
        + (opts.nukes y).p * pFromOddsNP (opts.nukes y).odds NPKey.dead
        + (opts.plague y).p * pFromOddsNP (opts.plague y).odds NPKey.dead) ∧
    mapGet (simpleTransitionFunction opts (World.year y)) World.reset =
      some ((opts.agi y).p * pFromOdds (opts.agi y).odds AGIKey.reset
        + (opts.nukes y).p * pFromOddsNP (opts.nukes y).odds NPKey.reset
        + (opts.plague y).p * pFromOddsNP (opts.plague y).odds NPKey.reset) ∧
    mapGet (simpleTransitionFunction opts (World.year y)) (World.year (y + 1)) =
      some (1 - (opts.agi y).p * pFromOdds (opts.agi y).odds AGIKey.heaven
        - ((opts.agi y).p * pFromOdds (opts.agi y).odds AGIKey.dead
          + (opts.nukes y).p * pFromOddsNP (opts.nukes y).odds NPKey.dead
          + (opts.plague y).p * pFromOddsNP (opts.plague y).odds NPKey.dead)
        - ((opts.agi y).p * pFromOdds (opts.agi y).odds AGIKey.reset
          + (opts.nukes y).p * pFromOddsNP (opts.nukes y).odds NPKey.reset
          + (opts.plague y).p * pFromOddsNP (opts.plague y).odds NPKey.reset)) := by
  refine ⟨?_, ?_, ?_, ?_⟩ <;> simp [simpleTransitionFunction, mapGet]

/-- C10: at a year `y` the returned map carries exactly the four keys
`heaven`, `dead`, `reset`, `y + 1`, in this insertion order, whatever the
sub-models return (entries are present even with probability 0). -/
theorem simpleTransitionFunction_year_support {α : Type} [Field α]
    (opts : SimpleModels α) (y : Year) :
    (simpleTransitionFunction opts (World.year y)).map Prod.fst =
      [World.heaven, World.dead, World.reset, World.year (y + 1)] :=
  rfl

/-- The scenario transition of the spec's example: each year, 10% of the
current year's mass moves to `dead` and 90% to the next year; the
sentinels stay put. -/
def decayTransition : World → List (World × ℚ)
  | .year y => [(.dead, 1/10), (.year (y + 1), 9/10)]
  | .dead => [(.dead, 1)]
  | .heaven => [(.heaven, 1)]
  | .reset => [(.reset, 1)]

/-- C8: `extrapolateAndMix(2022, {f: 1}, 3)` for the 10%-decay transition
yields `[{2022: 1}, {2023: 0.9, dead: 0.1}, {2024: 0.81, dead: 0.19}]`
(maps written in insertion order; `0.9 = 9/10` etc. exactly in `ℚ`). -/
theorem extrapolateAndMix_scenario :
    extrapolateAndMix (World.year 2022) [(decayTransition, (1 : ℚ))] 3 =
      [[(World.year 2022, 1)],
       [(World.dead, 1/10), (World.year 2023, 9/10)],
       [(World.dead, 19/100), (World.year 2024, 81/100)]] := by
  norm_num +decide [extrapolateAndMix, mixHistories, extrapolate,
    extrapolateGo, step, mix, accumInto, mapSet, mapGet, decayTransition,
    sumValues, List.range_succ]

theorem sumValues_normalize {T α : Type} [Field α] (e : List (T × α)) :
    sumValues (normalize e) = sumValues e / sumValues e := by
  have h : sumValues (normalize e)
      = ((e.map Prod.snd).map fun v => v * (sumValues e)⁻¹).sum := by
    simp [normalize, sumValues, List.map_map, Function.comp_def,
      div_eq_mul_inv]
  rw [h, sum_map_mul_const, sumValues, div_eq_mul_inv]

/-- Function `stdSigmoid` (line 138): the logistic function `1 / (1 + exp (-x))`. -/
noncomputable def stdSigmoid (x : ℝ) : ℝ := 1 / (1 + Real.exp (-x))

/-- Function `buildModels` from `src/models.ts` (lines 140–265).  Each JS `new Map`
here is built from freshly created closures, which are distinct under the
reference equality a JS `Map` uses, so no key collapsing occurs and the
association-list embedding keeps every entry.  `2 ** x` is real
exponentiation (`rpow`). -/
noncomputable def buildModels (work : Bool) :
    List ((World → List (World × ℝ)) × ℝ) :=
  let accelerationFromWorking : ℝ := 1 + (if work then 1e-7 else 0)
  let agiModels : List (SimpleAGIModel ℝ × ℝ) := normalize [
    -- Model: Eliezer is right; we're doomed.
    ((fun year => {
        p := min 1 (accelerationFromWorking * 0.05
          * (2 : ℝ) ^ (((year : ℝ) - 2022) / 10)),
        odds := {
          heaven := stdSigmoid (((year : ℝ) - 2080) / 20),
          dead := 1 - stdSigmoid (((year : ℝ) - 2080) / 20),
          reset := 0 } }), 1),
    -- Model: Paul Christiano is right.
    ((fun year => {
        p := min 1 (accelerationFromWorking * 0.02
          * (2 : ℝ) ^ (((year : ℝ) - 2022) / 10)),
        odds := {
          heaven := stdSigmoid (((year : ℝ) - 2030) / 10),
          dead := (1 - stdSigmoid (((year : ℝ) - 2030) / 10)) * 2 / 3,
          reset := (1 - stdSigmoid (((year : ℝ) - 2030) / 10)) * 1 / 3 } }), 1),
    -- Model: AGI is hard, but coming.
    ((fun year => {
        p := min 1 (accelerationFromWorking * 0.03
          * (2 : ℝ) ^ (((year : ℝ) - 2022) / 10)),
        odds := {
          heaven := stdSigmoid (((year : ℝ) - 2080) / 20),
          dead := (1 - stdSigmoid (((year : ℝ) - 2080) / 20)) / 2,
          reset := (1 - stdSigmoid (((year : ℝ) - 2080) / 20)) / 2 } }), 1),
    -- Model: AGI is way harder than I think.
    ((fun year => {
        p := min 1 (accelerationFromWorking * 0.001
          * (2 : ℝ) ^ (((year : ℝ) - 2022) / 30)),
        odds := {
          heaven := stdSigmoid (((year : ℝ) - 2080) / 20),
          dead := 0,
          reset := 0 } }), 0.2)]
  let nukesModels : List (SimpleNukeModel ℝ × ℝ) := normalize [
    ((fun _year => { p := 0.01, odds := { dead := 0.1, reset := 0.9 } }), 1)]
  let plagueModels : List (SimplePlagueModel ℝ × ℝ) := normalize [
    ((fun _year => { p := 0.005, odds := { dead := 0.1, reset := 0.9 } }), 1),
    ((fun _year => { p := 0, odds := { dead := 0, reset := 1 } }), 1)]
  normalize
    (agiModels.flatMap (fun agiPair =>
      nukesModels.flatMap (fun nukesPair =>
        plagueModels.map (fun plaguePair =>
          (simpleTransitionFunction
            { agi := agiPair.1, nukes := nukesPair.1, plague := plaguePair.1 },
            agiPair.2 * nukesPair.2 * plaguePair.2)))))

/-- C4: the weights of the model ensemble returned by `buildModels` sum to
1, with and without the acceleration factor. -/
theorem buildModels_weights_sum (work : Bool) :
    sumValues (buildModels work) = 1 := by
  simp only [buildModels]
  rw [sumValues_normalize]
  norm_num [normalize, sumValues]

end PDoom
